import Mathlib

/-
Verification of find_log_entries.py: the entry aggregator that segments a
GlassFish log line stream into entries delimited by the end sentinel "|#]",
and the conjunctive multi-regex entry filter.

Embedding notes.
A Python line (str) is modelled as its list of characters.  The compiled
regex rx_end (dot-star, then the escaped sentinel) applied with .match succeeds on a line exactly
when the three characters |#] occur at some position all of whose preceding
characters are not the newline character (the dot of the pattern does not
match newline); rxEndMatch computes that.  Python str.isspace is true on a
nonempty string all of whose characters are whitespace; pyIsSpace computes
that over the ASCII whitespace characters.  A caller-supplied compiled
regex is modelled by the Boolean predicate that regex.search induces on one
line (true exactly when the regex finds a match somewhere in the line).
The generator aggregate_entries is modelled as a total function from the
finite list of input lines to Except: Except.ok collects the yielded
(line number, entry lines) pairs in order, Except.error records the two
ways a run can die, the assert len(buffer) < 5000 failing, or the read of
entry_line_no before any assignment (a Python NameError, reachable only if
a whitespace-only line could match the sentinel pattern).
-/

namespace FindLogEntries

/-- One line of input text, as its list of characters. -/
abbrev Line := List Char

/-- Whitespace characters of Python str.isspace, ASCII range. -/
def pyIsSpaceChar (c : Char) : Bool :=
  c = ' ' || c = '\t' || c = '\n' || c = '\r' || c = '\x0b' || c = '\x0c'

/-- Python line.isspace(): the line is nonempty and every character is whitespace. -/
def pyIsSpace (l : Line) : Bool :=
  !l.isEmpty && l.all pyIsSpaceChar

/-- The three-character end sentinel occurs at the head of the line. -/
def isSentAt (l : Line) : Bool :=
  decide (l.take 3 = ['|', '#', ']'])

/-- Python rx_end.match(line) for rx_end = re.compile of dot-star followed by
the escaped sentinel: true when the sentinel occurs at a position whose
preceding characters contain no newline. -/
def rxEndMatch : Line → Bool
  | [] => false
  | c :: rest => isSentAt (c :: rest) || (decide (c ≠ '\n') && rxEndMatch rest)

/-- The three-character start marker occurs at the head of the line. -/
def isStartAt (l : Line) : Bool :=
  decide (l.take 3 = ['[', '#', '|'])

/-- The line contains the start marker somewhere. -/
def containsStartMarker : Line → Bool
  | [] => false
  | c :: rest => isStartAt (c :: rest) || containsStartMarker rest

/-- The two ways one run of the aggregator can raise. -/
inductive AggError where
  | assertionError
  | nameError
deriving DecidableEq

/-- The loop of aggregate_entries: remaining lines, current buffer, current
value of entry_line_no (none while still unassigned), current 1-based line
number.  Mirrors the Python loop body statement by statement. -/
def aggregateAux : List Line → List Line → Option Nat → Nat →
    Except AggError (List (Nat × List Line))
  | [], _, _, _ => Except.ok []
  | line :: rest, buffer, e, n =>
    if pyIsSpace line ∧ buffer = [] then
      if rxEndMatch line then
        match e with
        | none => Except.error AggError.nameError
        | some n0 => Except.map (fun out => (n0, buffer) :: out) (aggregateAux rest [] e (n + 1))
      else
        aggregateAux rest buffer e (n + 1)
    else
      if buffer.length < 5000 then
        if rxEndMatch line then
          match (if buffer = [] then some n else e) with
          | none => Except.error AggError.nameError
          | some n0 =>
              Except.map (fun out => (n0, buffer ++ [line]) :: out)
                (aggregateAux rest [] (if buffer = [] then some n else e) (n + 1))
        else
          aggregateAux rest (buffer ++ [line])
            (if buffer = [] then some n else e) (n + 1)
      else
        Except.error AggError.assertionError

/-- aggregate_entries(lines): run the loop from an empty buffer, with
entry_line_no unassigned, numbering lines from 1. -/
def aggregate_entries (lines : List Line) : Except AggError (List (Nat × List Line)) :=
  aggregateAux lines [] none 1

/-- make_regex_filter(regexes): the returned closure takes an entry tuple and
returns True exactly when every regex finds a match in some line of the
entry (the for loop returns False as soon as one regex matches no line). -/
def make_regex_filter (regexes : List (Line → Bool)) : Nat × List Line → Bool :=
  fun entry => regexes.all (fun regex => entry.2.any (fun l => regex l))

/-- Everything but the last line of a nonempty list is sentinel-free and the
last line matches the sentinel; false on the empty list. -/
def isWfEntryTail : List Line → Bool
  | [] => false
  | [l] => rxEndMatch l
  | l :: l1 :: ls => !rxEndMatch l && isWfEntryTail (l1 :: ls)

/-- A well-formed entry: nonempty, first line not whitespace-only, exactly the
last line matches the end sentinel. -/
def isWfEntry : List Line → Bool
  | [] => false
  | l :: ls => !pyIsSpace l && isWfEntryTail (l :: ls)

/-- One segment of a well-shaped stream: whitespace-only separator lines
followed by one well-formed entry of at most 5000 lines. -/
def GoodChunk (c : List Line × List Line) : Prop :=
  (∀ l ∈ c.1, pyIsSpace l = true) ∧ isWfEntry c.2 = true ∧ c.2.length ≤ 5000

instance (c : List Line × List Line) : Decidable (GoodChunk c) := by
  unfold GoodChunk; infer_instance

/-- Flatten a chunk decomposition back into the line stream it describes. -/
def chunksFlat : List (List Line × List Line) → List Line
  | [] => []
  | (bs, ent) :: rest => bs ++ ent ++ chunksFlat rest

/-- The output the aggregator should produce on chunksFlat, numbering from n:
each entry paired with the ordinal of its first line. -/
def expectedOut (n : Nat) : List (List Line × List Line) → List (Nat × List Line)
  | [] => []
  | (bs, ent) :: rest => (n + bs.length, ent) :: expectedOut (n + bs.length + ent.length) rest

/-- A concrete sentinel line. -/
def sentLine : Line := ['|', '#', ']']

/-- A concrete ordinary content line. -/
def aLine : Line := ['a']

/-- A concrete whitespace-only line. -/
def blankLine : Line := [' ']

/-- A concrete line carrying the start marker. -/
def startLine : Line := ['[', '#', '|']

/-- A concrete line predicate: the line contains the character a. -/
def hasA : Line → Bool := fun l => decide ('a' ∈ l)

/-- A concrete line predicate: the line contains the character b. -/
def hasB : Line → Bool := fun l => decide ('b' ∈ l)

/-- A well-formed 5001-line entry: 5000 content lines then the sentinel. -/
def overflowEntry : List Line := List.replicate 5000 aLine ++ [sentLine]

/-- Lemmas: every step the loop can take, as one rewrite each.  All later
proofs go through these and never unfold aggregateAux again. -/
theorem sentAt_shape {l : Line} (h : isSentAt l = true) :
    ∃ rest, l = '|' :: '#' :: ']' :: rest := by
  unfold isSentAt at h
  rw [decide_eq_true_eq] at h
  rcases l with _ | ⟨c1, _ | ⟨c2, _ | ⟨c3, r⟩⟩⟩ <;> simp [List.take] at h
  obtain ⟨h1, h2, h3⟩ := h
  subst h1; subst h2; subst h3
  exact ⟨r, rfl⟩

theorem blank_not_sent : ∀ l : Line, pyIsSpace l = true → rxEndMatch l = false := by
  intro l
  induction l with
  | nil => intro h; simp [pyIsSpace] at h
  | cons c rest ih =>
    intro h
    simp only [pyIsSpace, List.isEmpty_cons, List.all_cons, Bool.not_false, Bool.true_and,
      Bool.and_eq_true] at h
    obtain ⟨hc, hrest⟩ := h
    simp only [rxEndMatch, Bool.or_eq_false_iff, Bool.and_eq_false_iff]
    constructor
    · by_contra hs
      rw [Bool.not_eq_false] at hs
      obtain ⟨r, hr⟩ := sentAt_shape hs
      have : c = '|' := by injection hr
      subst this
      exact absurd hc (by decide)
    · rcases rest with _ | ⟨r, rs⟩
      · exact Or.inr rfl
      · refine Or.inr (ih ?_)
        simp only [pyIsSpace, List.isEmpty_cons, Bool.not_false, Bool.true_and]
        exact hrest

theorem sent_not_blank {l : Line} (h : rxEndMatch l = true) : pyIsSpace l = false := by
  by_contra hb
  rw [Bool.not_eq_false] at hb
  rw [blank_not_sent l hb] at h
  exact Bool.false_ne_true h

theorem step_skip (line : Line) (rest : List Line) (e : Option Nat) (n : Nat)
    (h : pyIsSpace line = true) :
    aggregateAux (line :: rest) [] e n = aggregateAux rest [] e (n + 1) := by
  have hs : rxEndMatch line = false := blank_not_sent line h
  simp only [aggregateAux]
  rw [if_pos ⟨h, trivial⟩, if_neg (by simp [hs])]

theorem step_start (line : Line) (rest : List Line) (e : Option Nat) (n : Nat)
    (hb : pyIsSpace line = false) (hs : rxEndMatch line = false) :
    aggregateAux (line :: rest) [] e n = aggregateAux rest [line] (some n) (n + 1) := by
  simp only [aggregateAux]
  rw [if_neg (by simp [hb]), if_pos (by simp), if_neg (by simp [hs]), if_pos trivial]
  rfl

theorem step_start_yield (line : Line) (rest : List Line) (e : Option Nat) (n : Nat)
    (hb : pyIsSpace line = false) (hs : rxEndMatch line = true) :
    aggregateAux (line :: rest) [] e n =
      Except.map (fun out => (n, [line]) :: out) (aggregateAux rest [] (some n) (n + 1)) := by
  simp only [aggregateAux]
  rw [if_neg (by simp [hb]), if_pos (by simp), if_pos (by simp [hs]), if_pos trivial]
  rfl

theorem step_append (line : Line) (rest buffer : List Line) (e : Option Nat) (n : Nat)
    (hb : buffer ≠ []) (hlen : buffer.length < 5000) (hs : rxEndMatch line = false) :
    aggregateAux (line :: rest) buffer e n = aggregateAux rest (buffer ++ [line]) e (n + 1) := by
  simp only [aggregateAux]
  rw [if_neg (fun hc => hb hc.2), if_pos hlen, if_neg (by simp [hs]), if_neg hb]

theorem step_append_yield (line : Line) (rest buffer : List Line) (n0 n : Nat)
    (hb : buffer ≠ []) (hlen : buffer.length < 5000) (hs : rxEndMatch line = true) :
    aggregateAux (line :: rest) buffer (some n0) n =
      Except.map (fun out => (n0, buffer ++ [line]) :: out)
        (aggregateAux rest [] (some n0) (n + 1)) := by
  simp only [aggregateAux]
  rw [if_neg (fun hc => hb hc.2), if_pos hlen, if_pos (by simp [hs]), if_neg hb]

theorem step_overflow (line : Line) (rest buffer : List Line) (e : Option Nat) (n : Nat)
    (hb : buffer ≠ []) (hlen : ¬ buffer.length < 5000) :
    aggregateAux (line :: rest) buffer e n = Except.error AggError.assertionError := by
  simp only [aggregateAux]
  rw [if_neg (fun hc => hb hc.2), if_neg hlen]

theorem run_skip (bs : List Line) : ∀ (e : Option Nat) (n : Nat) (rest : List Line),
    (∀ l ∈ bs, pyIsSpace l = true) →
    aggregateAux (bs ++ rest) [] e n = aggregateAux rest [] e (n + bs.length) := by
  induction bs with
  | nil => intro e n rest _; simp
  | cons b bs ih =>
    intro e n rest hbs
    rw [List.cons_append, step_skip b _ e n (hbs b (by simp))]
    rw [ih e (n + 1) rest (fun l hl => hbs l (by simp [hl]))]
    have h : n + 1 + bs.length = n + (b :: bs).length := by simp [List.length_cons]; omega
    rw [h]

theorem run_append (mid : List Line) : ∀ (buffer : List Line) (e : Option Nat) (n : Nat)
    (rest : List Line), buffer ≠ [] → (∀ l ∈ mid, rxEndMatch l = false) →
    buffer.length + mid.length ≤ 5000 →
    aggregateAux (mid ++ rest) buffer e n = aggregateAux rest (buffer ++ mid) e (n + mid.length) := by
  induction mid with
  | nil => intro buffer e n rest _ _ _; simp
  | cons m ms ih =>
    intro buffer e n rest hb hsent hlen
    have hlc : (m :: ms).length = ms.length + 1 := by simp
    rw [List.cons_append,
      step_append m _ buffer e n hb (by rw [hlc] at hlen; omega) (hsent m (by simp))]
    rw [ih (buffer ++ [m]) e (n + 1) rest (by simp) (fun l hl => hsent l (by simp [hl]))
      (by simp at hlen ⊢; omega)]
    have harr : buffer ++ [m] ++ ms = buffer ++ m :: ms := by simp
    have hn : n + 1 + ms.length = n + (m :: ms).length := by rw [hlc]; omega
    rw [harr, hn]

theorem tail_decomp : ∀ t : List Line, isWfEntryTail t = true →
    ∃ mid last, t = mid ++ [last] ∧ (∀ l ∈ mid, rxEndMatch l = false) ∧
      rxEndMatch last = true := by
  intro t
  induction t with
  | nil => intro h; simp [isWfEntryTail] at h
  | cons l ls ih =>
    intro h
    rcases ls with _ | ⟨l1, ls'⟩
    · exact ⟨[], l, rfl, by simp, by simpa [isWfEntryTail] using h⟩
    · simp only [isWfEntryTail, Bool.and_eq_true, Bool.not_eq_true'] at h
      obtain ⟨hl, ht⟩ := h
      obtain ⟨mid, last, heq, hmid, hlast⟩ := ih ht
      refine ⟨l :: mid, last, by simp [heq], ?_, hlast⟩
      intro x hx
      rcases List.mem_cons.mp hx with h1 | h2
      · subst h1; exact hl
      · exact hmid x h2

theorem wf_decomp (ent : List Line) (h : isWfEntry ent = true) :
    ∃ mid last, ent = mid ++ [last] ∧ (∀ l ∈ mid, rxEndMatch l = false) ∧
      rxEndMatch last = true ∧ pyIsSpace ent.headI = false := by
  rcases ent with _ | ⟨l, ls⟩
  · simp [isWfEntry] at h
  · simp only [isWfEntry, Bool.and_eq_true, Bool.not_eq_true'] at h
    obtain ⟨hhead, ht⟩ := h
    obtain ⟨mid, last, heq, hmid, hlast⟩ := tail_decomp (l :: ls) ht
    exact ⟨mid, last, heq, hmid, hlast, hhead⟩

theorem run_entry (ent : List Line) (hwf : isWfEntry ent = true) (hlen : ent.length ≤ 5000) :
    ∀ (e : Option Nat) (n : Nat) (rest : List Line),
    aggregateAux (ent ++ rest) [] e n =
      Except.map (fun out => (n, ent) :: out) (aggregateAux rest [] (some n) (n + ent.length)) := by
  obtain ⟨mid, last, heq, hmid, hlast, hhead⟩ := wf_decomp ent hwf
  intro e n rest
  subst heq
  rcases mid with _ | ⟨m, ms⟩
  · simpa using step_start_yield last rest e n (sent_not_blank hlast) hlast
  · have hm : pyIsSpace m = false := by simpa [List.headI] using hhead
    have hlen2 : (m :: ms ++ [last]).length = ms.length + 2 := by simp
    have hassoc : (m :: ms ++ [last]) ++ rest = m :: (ms ++ ([last] ++ rest)) := by simp
    rw [hassoc]
    rw [step_start m _ e n hm (hmid m (by simp))]
    rw [run_append ms [m] (some n) (n + 1) ([last] ++ rest) (by simp)
      (fun l hl => hmid l (by simp [hl])) (by rw [hlen2] at hlen; simp; omega)]
    rw [List.singleton_append,
      step_append_yield last rest ([m] ++ ms) n (n + 1 + ms.length) (by simp)
      (by rw [hlen2] at hlen; simp; omega) hlast]
    have h1 : ([m] ++ ms) ++ [last] = m :: ms ++ [last] := by simp
    have h2 : n + 1 + ms.length + 1 = n + (m :: ms ++ [last]).length := by rw [hlen2]; omega
    rw [h1, h2]

theorem step_append_yield_none (line : Line) (rest buffer : List Line) (n : Nat)
    (hb : buffer ≠ []) (hlen : buffer.length < 5000) (hs : rxEndMatch line = true) :
    aggregateAux (line :: rest) buffer none n = Except.error AggError.nameError := by
  simp only [aggregateAux]
  rw [if_neg (fun hc => hb hc.2), if_pos hlen, if_pos (by simp [hs]), if_neg hb]

theorem run_chunks : ∀ (chunks : List (List Line × List Line)),
    (∀ c ∈ chunks, GoodChunk c) → ∀ (rest : List Line) (e : Option Nat) (n : Nat),
    ∃ e1 : Option Nat,
      aggregateAux (chunksFlat chunks ++ rest) [] e n =
        Except.map (fun out => expectedOut n chunks ++ out)
          (aggregateAux rest [] e1 (n + (chunksFlat chunks).length)) := by
  intro chunks
  induction chunks with
  | nil =>
    intro _ rest e n
    refine ⟨e, ?_⟩
    simp only [chunksFlat, expectedOut, List.nil_append, List.length_nil, Nat.add_zero]
    cases aggregateAux rest [] e n <;> simp [Except.map]
  | cons c cs ih =>
    intro hgood rest e n
    obtain ⟨bs, ent⟩ := c
    obtain ⟨hbs, hwf, hlen⟩ := hgood (bs, ent) (by simp)
    obtain ⟨e1, he1⟩ := ih (fun x hx => hgood x (by simp [hx])) rest
      (some (n + bs.length)) (n + bs.length + ent.length)
    refine ⟨e1, ?_⟩
    have hflat : chunksFlat ((bs, ent) :: cs) ++ rest
        = bs ++ (ent ++ (chunksFlat cs ++ rest)) := by
      simp [chunksFlat, List.append_assoc]
    rw [hflat, run_skip bs e n _ hbs, run_entry ent hwf hlen _ (n + bs.length) _, he1]
    have hn : n + bs.length + ent.length + (chunksFlat cs).length
        = n + (chunksFlat ((bs, ent) :: cs)).length := by
      simp [chunksFlat]; omega
    rw [hn]
    cases aggregateAux rest [] e1 (n + (chunksFlat ((bs, ent) :: cs)).length) <;>
      simp [Except.map, expectedOut]

theorem run_dangling (t : List Line) : ∀ (buffer : List Line) (e : Option Nat) (n : Nat),
    buffer ≠ [] → (∀ l ∈ t, rxEndMatch l = false) → buffer.length + t.length ≤ 5000 →
    aggregateAux t buffer e n = Except.ok [] := by
  induction t with
  | nil => intro buffer e n _ _ _; rfl
  | cons l ts ih =>
    intro buffer e n hb hsent hlen
    rw [step_append l ts buffer e n hb (by simp at hlen; omega) (hsent l (by simp))]
    exact ih (buffer ++ [l]) e (n + 1) (by simp) (fun x hx => hsent x (by simp [hx]))
      (by simp at hlen ⊢; omega)

theorem run_overflow (seg : List Line) : ∀ (buffer : List Line) (e : Option Nat) (n : Nat)
    (rest : List Line), buffer ≠ [] → buffer.length + seg.length = 5001 →
    buffer.length ≤ 5000 → (∀ l ∈ seg.dropLast, rxEndMatch l = false) →
    aggregateAux (seg ++ rest) buffer e n = Except.error AggError.assertionError := by
  induction seg with
  | nil => intro buffer e n rest hb hsum hle _; simp at hsum; omega
  | cons l ts ih =>
    intro buffer e n rest hb hsum hle hsent
    rcases ts with _ | ⟨t1, ts1⟩
    · exact step_overflow l rest buffer e n hb (by simp at hsum; omega)
    · have hlt : buffer.length < 5000 := by simp at hsum; omega
      have hl : rxEndMatch l = false := hsent l (by rw [List.dropLast_cons₂]; simp)
      rw [List.cons_append, step_append l _ buffer e n hb hlt hl]
      refine ih (buffer ++ [l]) e (n + 1) rest (by simp) ?_ ?_ ?_
      · simp at hsum ⊢; omega
      · simp; omega
      · intro x hx
        refine hsent x ?_
        rw [List.dropLast_cons₂]
        exact List.mem_cons_of_mem l hx

theorem agg_overflow (seg : List Line) (rest : List Line)
    (hhead : pyIsSpace seg.headI = false) (hlen : seg.length = 5001)
    (hsent : ∀ l ∈ seg.dropLast, rxEndMatch l = false) :
    aggregate_entries (seg ++ rest) = Except.error AggError.assertionError := by
  rcases seg with _ | ⟨h, ts⟩
  · simp at hlen
  · have hh : pyIsSpace h = false := by simpa [List.headI] using hhead
    have hhs : rxEndMatch h = false := by
      refine hsent h ?_
      rcases ts with _ | ⟨t1, ts1⟩
      · simp at hlen
      · rw [List.dropLast_cons₂]; simp
    unfold aggregate_entries
    rw [List.cons_append, step_start h _ none 1 hh hhs]
    refine run_overflow ts [h] (some 1) 2 rest (by simp) ?_ ?_ ?_
    · simp at hlen ⊢; omega
    · simp
    · intro x hx
      refine hsent x ?_
      rcases ts with _ | ⟨t1, ts1⟩
      · simp at hx
      · rw [List.dropLast_cons₂]
        exact List.mem_cons_of_mem h hx

theorem agg_ok_inv : ∀ (ls buffer : List Line) (e : Option Nat) (n : Nat)
    (out : List (Nat × List Line)),
    (∀ n0, e = some n0 → n0 ≤ n) →
    aggregateAux ls buffer e n = Except.ok out →
    (∀ p ∈ out, (if buffer = [] then n else e.getD n) ≤ p.1 ∧ p.2 ≠ []) ∧
      List.Pairwise (fun p q => p.1 < q.1) out := by
  intro ls
  induction ls with
  | nil =>
    intro buffer e n out _ h
    simp only [aggregateAux] at h
    injection h with h
    subst h
    simp
  | cons l ts ih =>
    intro buffer e n out he h
    rcases eq_or_ne buffer [] with hbuf | hbuf
    · subst hbuf
      cases hbl : pyIsSpace l with
      | true =>
        rw [step_skip l ts e n hbl] at h
        obtain ⟨h1, h2⟩ := ih [] e (n + 1) out
          (fun n0 hn0 => le_trans (he n0 hn0) (by omega)) h
        refine ⟨fun p hp => ⟨?_, (h1 p hp).2⟩, h2⟩
        have hb1 := (h1 p hp).1
        simp at hb1 ⊢
        omega
      | false =>
        cases hsent : rxEndMatch l with
        | false =>
          rw [step_start l ts e n hbl hsent] at h
          obtain ⟨h1, h2⟩ := ih [l] (some n) (n + 1) out
            (by intro n0 hn0; injection hn0 with hn0; omega) h
          refine ⟨fun p hp => ⟨?_, (h1 p hp).2⟩, h2⟩
          have hb1 := (h1 p hp).1
          simp at hb1 ⊢
          omega
        | true =>
          rw [step_start_yield l ts e n hbl hsent] at h
          cases hX : aggregateAux ts [] (some n) (n + 1) with
          | error err => rw [hX] at h; simp only [Except.map] at h; exact Except.noConfusion h
          | ok outt =>
            rw [hX] at h
            simp only [Except.map] at h
            injection h with h
            subst h
            obtain ⟨h1, h2⟩ := ih [] (some n) (n + 1) outt
              (by intro n0 hn0; injection hn0 with hn0; omega) hX
            constructor
            · intro p hp
              rcases List.mem_cons.mp hp with rfl | hp1
              · simp
              · have hb1 := (h1 p hp1).1
                simp at hb1
                exact ⟨by simp; omega, (h1 p hp1).2⟩
            · refine List.Pairwise.cons ?_ h2
              intro q hq
              have hb1 := (h1 q hq).1
              simp at hb1
              omega
    · by_cases hlen : buffer.length < 5000
      · cases hsent : rxEndMatch l with
        | false =>
          rw [step_append l ts buffer e n hbuf hlen hsent] at h
          obtain ⟨h1, h2⟩ := ih (buffer ++ [l]) e (n + 1) out
            (fun n0 hn0 => le_trans (he n0 hn0) (by omega)) h
          refine ⟨fun p hp => ⟨?_, (h1 p hp).2⟩, h2⟩
          have hb1 := (h1 p hp).1
          rw [if_neg hbuf]
          rw [if_neg (by simp)] at hb1
          cases e with
          | none => simp only [Option.getD] at hb1 ⊢; omega
          | some n0 => simpa using hb1
        | true =>
          cases e with
          | none =>
            rw [step_append_yield_none l ts buffer n hbuf hlen hsent] at h
            exact Except.noConfusion h
          | some n0 =>
            rw [step_append_yield l ts buffer n0 n hbuf hlen hsent] at h
            cases hX : aggregateAux ts [] (some n0) (n + 1) with
            | error err =>
              rw [hX] at h; simp only [Except.map] at h; exact Except.noConfusion h
            | ok outt =>
              rw [hX] at h
              simp only [Except.map] at h
              injection h with h
              subst h
              have hn0 : n0 ≤ n := he n0 rfl
              obtain ⟨h1, h2⟩ := ih [] (some n0) (n + 1) outt
                (by intro x hx; injection hx with hx; omega) hX
              constructor
              · intro p hp
                rcases List.mem_cons.mp hp with rfl | hp1
                · simp [if_neg hbuf]
                · have hb1 := (h1 p hp1).1
                  simp at hb1
                  rw [if_neg hbuf]
                  exact ⟨by simp; omega, (h1 p hp1).2⟩
              · refine List.Pairwise.cons ?_ h2
                intro q hq
                have hb1 := (h1 q hq).1
                simp at hb1
                omega
      · rw [step_overflow l ts buffer e n hbuf hlen] at h
        exact Except.noConfusion h

theorem run_blank_end (tb : List Line) (e : Option Nat) (n : Nat)
    (h : ∀ l ∈ tb, pyIsSpace l = true) : aggregateAux tb [] e n = Except.ok [] := by
  have h2 := run_skip tb e n [] h
  rw [List.append_nil] at h2
  rw [h2]
  rfl

theorem tail_comp : ∀ (mid : List Line) (last : Line),
    (∀ l ∈ mid, rxEndMatch l = false) → rxEndMatch last = true →
    isWfEntryTail (mid ++ [last]) = true := by
  intro mid
  induction mid with
  | nil => intro last _ hl; simpa [isWfEntryTail] using hl
  | cons m ms ih =>
    intro last hmid hl
    have hm : rxEndMatch m = false := hmid m (by simp)
    rcases ms with _ | ⟨m1, ms1⟩
    · simp [isWfEntryTail, hm, hl]
    · have h2 := ih last (fun l hl2 => hmid l (by simp [hl2])) hl
      simp only [List.cons_append] at h2 ⊢
      simp [isWfEntryTail, hm, h2]

theorem wf_comp (mid : List Line) (last : Line)
    (hmid : ∀ l ∈ mid, rxEndMatch l = false) (hl : rxEndMatch last = true)
    (hhead : pyIsSpace ((mid ++ [last]).headI) = false) :
    isWfEntry (mid ++ [last]) = true := by
  rcases mid with _ | ⟨m, ms⟩
  · simp [isWfEntry, isWfEntryTail, hl, sent_not_blank hl]
  · have hm : pyIsSpace m = false := by simpa [List.headI] using hhead
    have ht := tail_comp (m :: ms) last hmid hl
    simp only [List.cons_append] at ht ⊢
    simp [isWfEntry, hm, ht]

/-- C1 counterexample: a single well-formed entry of 5001 lines (5000 content
lines, then the sentinel line) is a stream composed of exactly one well-formed
entry, yet aggregate_entries does not yield it: the assertion aborts the run
while appending its 5001st line. -/
theorem C1_counterexample :
    isWfEntry overflowEntry = true ∧
      aggregate_entries overflowEntry ≠ Except.ok [(1, overflowEntry)] := by
  have hmid : ∀ l ∈ List.replicate 5000 aLine, rxEndMatch l = false := by
    intro l hl; rw [List.eq_of_mem_replicate hl]; rfl
  constructor
  · exact wf_comp (List.replicate 5000 aLine) sentLine hmid rfl rfl
  · have herr : aggregate_entries overflowEntry = Except.error AggError.assertionError := by
      have h := agg_overflow overflowEntry [] rfl
        (by unfold overflowEntry; rw [List.length_append, List.length_replicate]; rfl)
        (by intro l hl
            unfold overflowEntry at hl
            rw [List.dropLast_concat] at hl
            exact hmid l hl)
      rw [List.append_nil] at h
      exact h
    rw [herr]
    intro hcon
    exact Except.noConfusion hcon

/-- C1 (amended: each entry holds at most 5000 lines, the bound the code
enforces): for every line sequence composed of zero or more well-formed
entries of at most 5000 lines, possibly separated by whitespace-only lines,
aggregate_entries yields exactly those entries in order, each as the pair of
the 1-based ordinal of its first retained line and its full list of lines up
to and including the sentinel line. -/
theorem C1_segmentation (chunks : List (List Line × List Line)) (tb : List Line)
    (hgood : ∀ c ∈ chunks, GoodChunk c) (htb : ∀ l ∈ tb, pyIsSpace l = true) :
    aggregate_entries (chunksFlat chunks ++ tb) = Except.ok (expectedOut 1 chunks) := by
  obtain ⟨e1, he1⟩ := run_chunks chunks hgood tb none 1
  unfold aggregate_entries
  rw [he1, run_blank_end tb e1 _ htb]
  simp [Except.map]

/-- C1 witness: one blank line, an entry of two lines, an entry of one line,
one trailing blank line. -/
theorem C1_segmentation_witness :
    aggregate_entries
        (chunksFlat [([blankLine], [aLine, sentLine]), ([], [sentLine])] ++ [blankLine])
      = Except.ok (expectedOut 1 [([blankLine], [aLine, sentLine]), ([], [sentLine])]) :=
  C1_segmentation [([blankLine], [aLine, sentLine]), ([], [sentLine])] [blankLine]
    (by decide) (by decide)

/-- C2: the predicate built by make_regex_filter accepts an entry exactly when
every pattern in the set matches at least one line of the entry, and the
empty pattern set accepts every entry. -/
theorem C2_conjunctive_filter (regexes : List (Line → Bool)) (entry : Nat × List Line) :
    (make_regex_filter regexes entry = true ↔
      ∀ regex ∈ regexes, ∃ l ∈ entry.2, regex l = true) ∧
      make_regex_filter [] entry = true := by
  constructor
  · simp [make_regex_filter, List.all_eq_true, List.any_eq_true]
  · rfl

/-- C3: a stream opening with 5001 lines that all accumulate into one buffer
(first line non-blank, none of the first 5000 lines matching the sentinel)
makes aggregate_entries raise the assertion error, whatever follows; while a
well-formed entry of at most 5000 lines is yielded normally. -/
theorem C3_overflow_guard :
    (∀ seg rest : List Line, pyIsSpace seg.headI = false → seg.length = 5001 →
      (∀ l ∈ seg.dropLast, rxEndMatch l = false) →
      aggregate_entries (seg ++ rest) = Except.error AggError.assertionError) ∧
    (∀ ent : List Line, isWfEntry ent = true → ent.length ≤ 5000 →
      aggregate_entries ent = Except.ok [(1, ent)]) := by
  constructor
  · exact fun seg rest h1 h2 h3 => agg_overflow seg rest h1 h2 h3
  · intro ent hwf hlen
    have h := run_entry ent hwf hlen none 1 []
    rw [List.append_nil] at h
    unfold aggregate_entries
    rw [h]
    rfl

/-- C3 witness: 5001 content lines with no sentinel raise the assertion error;
a two-line entry is yielded normally. -/
theorem C3_overflow_guard_witness :
    aggregate_entries (aLine :: List.replicate 5000 aLine)
        = Except.error AggError.assertionError ∧
      aggregate_entries [aLine, sentLine] = Except.ok [(1, [aLine, sentLine])] := by
  constructor
  · have hsent : ∀ l ∈ (aLine :: List.replicate 5000 aLine).dropLast, rxEndMatch l = false := by
      intro l hl
      have hm := List.mem_of_mem_dropLast hl
      rcases List.mem_cons.mp hm with rfl | hrep
      · rfl
      · rw [List.eq_of_mem_replicate hrep]; rfl
    have h := C3_overflow_guard.1 (aLine :: List.replicate 5000 aLine) [] rfl
      (by rw [List.length_cons, List.length_replicate]) hsent
    rw [List.append_nil] at h
    exact h
  · exact C3_overflow_guard.2 [aLine, sentLine] (by decide) (by decide)

/-- C4: a stream of well-formed entries followed by a dangling tail (optional
blank lines, then a non-empty unterminated run with no sentinel line, within
the buffer bound so no overflow is involved) terminates normally: the run
returns ok with exactly the complete entries, the trailing unterminated entry
silently discarded, and no error of either kind is raised. -/
theorem C4_dangling_discarded (chunks : List (List Line × List Line)) (tbs t : List Line)
    (hgood : ∀ c ∈ chunks, GoodChunk c) (htbs : ∀ l ∈ tbs, pyIsSpace l = true)
    (ht : t ≠ []) (hthead : pyIsSpace t.headI = false)
    (htsent : ∀ l ∈ t, rxEndMatch l = false) (htlen : t.length ≤ 5000) :
    aggregate_entries (chunksFlat chunks ++ (tbs ++ t)) = Except.ok (expectedOut 1 chunks) := by
  obtain ⟨e1, he1⟩ := run_chunks chunks hgood (tbs ++ t) none 1
  unfold aggregate_entries
  rw [he1, run_skip tbs e1 _ t htbs]
  rcases t with _ | ⟨th, tt⟩
  · exact absurd rfl ht
  · have hh : pyIsSpace th = false := by simpa [List.headI] using hthead
    rw [step_start th tt e1 _ hh (htsent th (by simp))]
    rw [run_dangling tt [th] _ _ (by simp) (fun x hx => htsent x (by simp [hx]))
      (by simp at htlen ⊢; omega)]
    simp [Except.map]

/-- C4 witness: one complete entry, then a blank line and one dangling content
line; only the complete entry is yielded and no error is raised. -/
theorem C4_dangling_discarded_witness :
    aggregate_entries (chunksFlat [([], [aLine, sentLine])] ++ ([blankLine] ++ [aLine]))
      = Except.ok (expectedOut 1 [([], [aLine, sentLine])]) :=
  C4_dangling_discarded [([], [aLine, sentLine])] [blankLine] [aLine]
    (by decide) (by decide) (by decide) (by decide) (by decide) (by decide)

/-- C5: whitespace-only lines are discarded while the buffer is empty (the line
number advances and nothing else changes), so N leading blank lines before a
well-formed entry give that entry start ordinal N+1; a whitespace-only line
arriving once the buffer is non-empty is appended to it. -/
theorem C5_blank_handling :
    (∀ bs ent : List Line, (∀ l ∈ bs, pyIsSpace l = true) → isWfEntry ent = true →
      ent.length ≤ 5000 →
      aggregate_entries (bs ++ ent) = Except.ok [(bs.length + 1, ent)]) ∧
    (∀ (line : Line) (buffer : List Line) (e : Option Nat) (n : Nat) (rest : List Line),
      pyIsSpace line = true → buffer ≠ [] → buffer.length < 5000 →
      aggregateAux (line :: rest) buffer e n = aggregateAux rest (buffer ++ [line]) e (n + 1)) ∧
    (∀ (line : Line) (e : Option Nat) (n : Nat) (rest : List Line),
      pyIsSpace line = true →
      aggregateAux (line :: rest) [] e n = aggregateAux rest [] e (n + 1)) := by
  refine ⟨?_, ?_, ?_⟩
  · intro bs ent hbs hwf hlen
    unfold aggregate_entries
    rw [run_skip bs none 1 ent hbs]
    have h := run_entry ent hwf hlen none (1 + bs.length) []
    rw [List.append_nil] at h
    rw [h]
    have harith : 1 + bs.length = bs.length + 1 := by omega
    rw [harith]
    rfl
  · intro line buffer e n rest hbl hb hlen
    exact step_append line rest buffer e n hb hlen (blank_not_sent line hbl)
  · intro line e n rest hbl
    exact step_skip line rest e n hbl

/-- C5 witness: two leading blank lines give start ordinal 3; a blank line is
appended to a non-empty buffer; a blank line is skipped on an empty buffer. -/
theorem C5_blank_handling_witness :
    aggregate_entries ([blankLine, blankLine] ++ [aLine, sentLine])
        = Except.ok [(3, [aLine, sentLine])] ∧
      aggregateAux [blankLine] [aLine] none 5 = aggregateAux [] [aLine, blankLine] none 6 ∧
      aggregateAux [blankLine] [] none 7 = aggregateAux [] [] none 8 := by
  refine ⟨?_, ?_, ?_⟩
  · exact C5_blank_handling.1 [blankLine, blankLine] [aLine, sentLine]
      (by decide) (by decide) (by decide)
  · exact C5_blank_handling.2.1 blankLine [aLine] none 5 [] (by decide) (by decide) (by decide)
  · exact C5_blank_handling.2.2 blankLine none 7 [] (by decide)

/-- C6: the predicate built by make_regex_filter gives the same result on every
permutation of the pattern list. -/
theorem C6_order_independence (rs rs2 : List (Line → Bool)) (entry : Nat × List Line)
    (h : rs.Perm rs2) :
    make_regex_filter rs entry = make_regex_filter rs2 entry := by
  unfold make_regex_filter
  rw [Bool.eq_iff_iff]
  simp only [List.all_eq_true]
  exact ⟨fun H x hx => H x (h.mem_iff.mpr hx), fun H x hx => H x (h.mem_iff.mp hx)⟩

/-- C6 witness: swapping two concrete patterns leaves the verdict unchanged. -/
theorem C6_order_independence_witness :
    make_regex_filter [hasA, hasB] (1, [aLine])
      = make_regex_filter [hasB, hasA] (1, [aLine]) :=
  C6_order_independence [hasA, hasB] [hasB, hasA] (1, [aLine]) (List.Perm.swap hasB hasA [])

/-- C7: a line matching the end-sentinel pattern is never whitespace-only, so
although the sentinel test also runs on lines skipped as leading blanks, the
yield branch never fires with an empty buffer: every yielded entry is
non-empty. -/
theorem C7_sentinel_never_blank :
    (∀ l : Line, rxEndMatch l = true → pyIsSpace l = false) ∧
    (∀ (ls : List Line) (out : List (Nat × List Line)),
      aggregate_entries ls = Except.ok out → ∀ p ∈ out, p.2 ≠ []) := by
  refine ⟨fun l h => sent_not_blank h, ?_⟩
  intro ls out h p hp
  exact ((agg_ok_inv ls [] none 1 out (fun n0 hn0 => Option.noConfusion hn0) h).1 p hp).2

/-- C7 witness: the concrete sentinel line is not blank, and the entry yielded
from it is non-empty. -/
theorem C7_sentinel_never_blank_witness :
    pyIsSpace sentLine = false ∧
      ∀ p ∈ [(1, [sentLine])], Prod.snd p ≠ ([] : List Line) := by
  constructor
  · exact C7_sentinel_never_blank.1 sentLine (by decide)
  · exact C7_sentinel_never_blank.2 [sentLine] [(1, [sentLine])] rfl

/-- C8: the start line numbers of the pairs yielded by one run are strictly
increasing. -/
theorem C8_ascending (ls : List Line) (out : List (Nat × List Line))
    (h : aggregate_entries ls = Except.ok out) :
    List.Pairwise (· < ·) (out.map Prod.fst) := by
  rw [List.pairwise_map]
  exact (agg_ok_inv ls [] none 1 out (fun n0 hn0 => Option.noConfusion hn0) h).2

/-- C8 witness: a two-entry stream yields start lines 1 and 2 in order. -/
theorem C8_ascending_witness :
    List.Pairwise (· < ·) ([(1, [sentLine]), (2, [aLine, sentLine])].map Prod.fst) :=
  C8_ascending [sentLine, aLine, sentLine] [(1, [sentLine]), (2, [aLine, sentLine])] rfl

/-- C9: the empty line is not whitespace-only for line.isspace(), so arriving
on an empty buffer it is retained and starts a new entry recorded at its own
ordinal. -/
theorem C9_empty_line_not_blank :
    pyIsSpace ([] : Line) = false ∧
      ∀ (e : Option Nat) (n : Nat) (rest : List Line),
        aggregateAux (([] : Line) :: rest) [] e n
          = aggregateAux rest [([] : Line)] (some n) (n + 1) := by
  refine ⟨rfl, ?_⟩
  intro e n rest
  exact step_start [] rest e n rfl rfl

/-- C10: entry boundaries depend only on the whitespace test and the sentinel
test: any non-blank non-sentinel line starts a new entry on an empty buffer,
and any non-sentinel line (in particular one containing the start marker) is
appended to a non-empty buffer without starting or ending an entry. -/
theorem C10_start_marker_inert :
    (∀ (line : Line) (e : Option Nat) (n : Nat) (rest : List Line),
      pyIsSpace line = false → rxEndMatch line = false →
      aggregateAux (line :: rest) [] e n = aggregateAux rest [line] (some n) (n + 1)) ∧
    (∀ (line : Line) (buffer : List Line) (e : Option Nat) (n : Nat) (rest : List Line),
      containsStartMarker line = true → buffer ≠ [] → buffer.length < 5000 →
      rxEndMatch line = false →
      aggregateAux (line :: rest) buffer e n = aggregateAux rest (buffer ++ [line]) e (n + 1)) := by
  constructor
  · intro line e n rest h1 h2
    exact step_start line rest e n h1 h2
  · intro line buffer e n rest _ hb hlen hs
    exact step_append line rest buffer e n hb hlen hs

/-- C10 witness: a line holding the start marker starts an entry only through
the ordinary non-blank rule, and mid-entry it is merely appended. -/
theorem C10_start_marker_inert_witness :
    aggregateAux [startLine] [] none 1 = aggregateAux [] [startLine] (some 1) 2 ∧
      aggregateAux [startLine] [aLine] none 3 = aggregateAux [] [aLine, startLine] none 4 := by
  constructor
  · exact C10_start_marker_inert.1 startLine none 1 [] (by decide) (by decide)
  · exact C10_start_marker_inert.2 startLine [aLine] none 3 []
      (by decide) (by decide) (by decide) (by decide)

end FindLogEntries
